import Mathlib

/-!
Verification of the openclaw pwa-chat session relay.

This file gives a shallow embedding of the relay's core modules —
`src/message-store.ts`, `src/auth.ts` and `src/ws-server.ts` — and proves
the specified properties about the embedded definitions.

Modelling conventions:
* JavaScript values parsed from JSON are modelled by the inductive `Json`
  (the TypeScript code performs unchecked casts on `JSON.parse` results, so
  the model must keep the full value space).
* Strings are manipulated through their character lists (`String.data`), which
  keeps every definition kernel-computable.  JavaScript `.length`/`.slice`
  count UTF-16 units while Lean counts code points; none of the proved
  properties depend on the difference.
* The mutable module state of `ws-server.ts` (`userStates`, `streamingState`)
  becomes an explicit `ServerState`, and each externally triggered entry point
  (connection, client event, outbound push, the streaming timeout callback
  firing, the clock advancing) becomes an `Op`.  `setTimeout` is modelled by
  storing an absolute deadline; the timeout callback may run (`Op.fireTimer`)
  only when the entry is still present and the clock has passed the deadline,
  exactly the situations in which Node would run a non-cancelled timer.
* Effects that the code requests from the outside world (`Date.now()`,
  `randomUUID()`, `nextMessageId`, the agent dispatch) enter as parameters of
  the corresponding `Op`; fire-and-forget outputs (push notifications, agent
  dispatches) are recorded in ghost logs on the state.
-/

namespace PwaChat

/-! ## Character and string helpers (JavaScript semantics) -/

/-- Whitespace class used by JavaScript `String.prototype.trim` and the
regular-expression class matched by the backslash-s escape (ASCII part plus
NBSP; the exotic Unicode spaces never appear in the proofs). -/
def isJsWs (c : Char) : Bool :=
  c = ' ' ∨ c = '\t' ∨ c = '\n' ∨ c = '\r' ∨ c = '\x0b' ∨ c = '\x0c' ∨ c = ' '

/-- JavaScript `text.trim()`. -/
def jsTrim (s : String) : String :=
  ⟨((s.data.dropWhile isJsWs).reverse.dropWhile isJsWs).reverse⟩

/-- Character class `[a-zA-Z0-9_-]` of the sanitizing regex in
`message-store.ts`. -/
def isSafeChar (c : Char) : Bool :=
  ('a' ≤ c ∧ c ≤ 'z') ∨ ('A' ≤ c ∧ c ≤ 'Z') ∨ ('0' ≤ c ∧ c ≤ '9') ∨ c = '_' ∨ c = '-'

/-- Source: `userId.replace(/[^a-zA-Z0-9_-]/g, "_")` from `storagePath`. -/
def sanitizeFileName (userId : String) : String :=
  ⟨userId.data.map (fun c => if isSafeChar c then c else '_')⟩

/-- ASCII lower-casing, used for the case-insensitive `Bearer` match. -/
def lowerChar (c : Char) : Char :=
  if 'A' ≤ c ∧ c ≤ 'Z' then Char.ofNat (c.toNat + 32) else c

/-! ## JSON values and stored messages -/

/-- A parsed JSON value, the result type of a successful `JSON.parse`. -/
inductive Json where
  | null : Json
  | jbool : Bool → Json
  | num : Int → Json
  | str : String → Json
  | arr : List Json → Json
  | obj : List (String × Json) → Json

/-- Message role, `"user" | "assistant"` from `types.ts`. -/
inductive Role where
  | user : Role
  | assistant : Role
deriving DecidableEq

/-- Source: `StoredMessage` from `types.ts` plus the optional fields the server
attaches (`mediaUrl` from `pushOutboundMessage`; `hasImages`/`imageCount`
from the inbound message handler, collapsed into `images : Option Nat`,
present if and only if the pair of fields is present). -/
structure StoredMessage where
  id : String
  text : String
  timestamp : Int
  role : Role
  mediaUrl : Option String := none
  images : Option Nat := none
deriving DecidableEq

/-- JSON-encoding of a role. -/
def Role.toStr : Role → String
  | .user => "user"
  | .assistant => "assistant"

/-- The JSON object a `StoredMessage` serializes to (field set mirrors the
object literals in `ws-server.ts`). -/
def encodeMsg (m : StoredMessage) : Json :=
  .obj ([("id", .str m.id), ("text", .str m.text), ("timestamp", .num m.timestamp),
    ("role", .str m.role.toStr)]
    ++ (match m.mediaUrl with | some u => [("mediaUrl", .str u)] | none => [])
    ++ (match m.images with
        | some k => [("hasImages", .jbool true), ("imageCount", .num (k : Int))]
        | none => []))

/-! ## message-store.ts -/

/-- Source: `MAX_HISTORY` from `types.ts`. -/
def MAX_HISTORY : Nat := 500

/-- Contents of one history file as far as `JSON.parse` is concerned:
either bytes on which the parse throws, or a parsed JSON value. -/
inductive FileContent where
  | junk : FileContent
  | json : Json → FileContent

/-- The history directory: sanitized file name to optional file contents. -/
def FS : Type := String → Option FileContent

/-- Source: `readHistory` from `message-store.ts`: empty array when the file is
missing or `JSON.parse` throws, otherwise the parse result — which the code
casts to `StoredMessage[]` without validation, so the model returns `Json`. -/
def readHistory (fs : FS) (userId : String) : Json :=
  match fs (sanitizeFileName userId) with
  | none => .arr []
  | some .junk => .arr []
  | some (.json j) => j

/-- Fuel-indexed unfolding of `while (msgs.length > MAX_HISTORY) msgs.shift()`. -/
def shiftWhileAux : Nat → List Json → List Json
  | 0, l => l
  | n + 1, l => if l.length > MAX_HISTORY then shiftWhileAux n l.tail else l

/-- The shift loop of `appendMessage`; the initial length bounds the number
of iterations. -/
def shiftWhile (l : List Json) : List Json :=
  shiftWhileAux l.length l

/-- Source: `appendMessage` from `message-store.ts`.  When the current parse result is
not an array, `msgs.push` throws a `TypeError` (modelled as `none`); otherwise
the message is appended, the list left-truncated to `MAX_HISTORY`, and the file
rewritten. -/
def appendMessage (fs : FS) (userId : String) (m : StoredMessage) : Option FS :=
  match readHistory fs userId with
  | .arr msgs =>
      some (fun k =>
        if k = sanitizeFileName userId then
          some (.json (.arr (shiftWhile (msgs ++ [encodeMsg m]))))
        else fs k)
  | _ => none

/-! ## auth.ts -/

/-- The parts of the incoming request that `checkAuth` inspects.  Node yields
`undefined` for an absent header; for the `tailscale-user-login` header and
the remote address the code only performs truthiness tests, so those two are
modelled as plain strings with `""` for absent-or-empty (the code cannot
distinguish them).  The `authorization` and `x-auth-token` headers and the
`token` query parameter flow through `??` chains that do distinguish absence
from emptiness, so they stay `Option String`. -/
structure AuthRequest where
  tailscaleLogin : String
  remoteAddress : String
  authorization : Option String
  xAuthToken : Option String
  queryToken : Option String

/-- The configured `gateway.auth.token`; the code tests it with `if (!token)`,
so an empty string behaves exactly like an unconfigured token and the model
uses `""` for absent. -/
structure AuthConfig where
  token : String

/-- Source: `authHeader.replace(/^Bearer\s+/i, "")`: strip a case-insensitive
`Bearer` followed by at least one whitespace character (greedy). -/
def stripBearer (s : String) : String :=
  let cs := s.data
  if (cs.take 6).map lowerChar = "bearer".data ∧ isJsWs ((cs.drop 6).headD 'x') then
    ⟨(cs.drop 6).dropWhile isJsWs⟩
  else s

/-- Source: `authHeader?.replace(/^Bearer\s+/i, "") ?? xToken ?? queryToken`. -/
def providedSecret (req : AuthRequest) : Option String :=
  match req.authorization with
  | some a => some (stripBearer a)
  | none =>
      match req.xAuthToken with
      | some x => some x
      | none => req.queryToken

/-- Source: `checkAuth` from `auth.ts`. -/
def checkAuth (req : AuthRequest) (cfg : AuthConfig) : Bool :=
  if req.tailscaleLogin ≠ "" then true
  else if req.remoteAddress = "127.0.0.1" ∨ req.remoteAddress = "::1"
      ∨ req.remoteAddress = "::ffff:127.0.0.1" then true
  else if cfg.token = "" then true
  else providedSecret req = some cfg.token

/-- The acceptance condition exactly as the specification words it: four
paths, first match winning (every path accepts, so the order is a plain
disjunction); the secret is the `Authorization` header with an optional
`Bearer` prefix stripped if that header is present, else the `X-Auth-Token`
header if present, else the `token` query parameter. -/
def checkAuthSpec (req : AuthRequest) (cfg : AuthConfig) : Prop :=
  req.tailscaleLogin ≠ ""
  ∨ (req.remoteAddress = "127.0.0.1" ∨ req.remoteAddress = "::1"
      ∨ req.remoteAddress = "::ffff:127.0.0.1")
  ∨ cfg.token = ""
  ∨ providedSecret req = some cfg.token

/-! ## ws-server.ts: state -/

/-- Source: `EVENT_BUFFER_SIZE` from `ws-server.ts`. -/
def EVENT_BUFFER_SIZE : Nat := 500

/-- Source: `STREAMING_TIMEOUT_MS` from `types.ts` (30 s). -/
def STREAMING_TIMEOUT_MS : Nat := 30000

/-- Source: `WsServerMessage` from `types.ts`.  `history` carries the raw
`readHistory` result (the code inserts it unvalidated). -/
inductive SEvent where
  | hello : String → Nat → SEvent
  | history : Json → Nat → SEvent
  | message : StoredMessage → Nat → SEvent
  | streaming : String → Nat → SEvent
  | streamingEnd : Nat → SEvent
  | pong : SEvent

/-- The sequence number an event carries, if any (`pong` has none). -/
def SEvent.seqOf : SEvent → Option Nat
  | .hello _ q => some q
  | .history _ q => some q
  | .message _ q => some q
  | .streaming _ q => some q
  | .streamingEnd q => some q
  | .pong => none

/-- Whether the event is a `hello`. -/
def SEvent.isHello : SEvent → Bool
  | .hello _ _ => true
  | _ => false

/-- Source: `ClientInfo` plus observer state: `received` records every `ws.send`
performed on this socket, and `isOpen` its `readyState === OPEN` test. -/
structure Client where
  handle : Nat
  connectionId : String
  isOpen : Bool
  received : List SEvent

/-- Source: `UserState` from `ws-server.ts`; `emitLog` is ghost state recording every
event created with a freshly assigned sequence number, in creation order. -/
structure UserState where
  sequence : Nat
  eventBuffer : List (Nat × SEvent)
  clients : List Client
  emitLog : List SEvent

/-- The value stored in `streamingState`; the armed `setTimeout` is modelled
by the absolute time at which it would fire. -/
structure StreamEntry where
  text : String
  deadline : Nat
deriving DecidableEq

/-- Lookup in a JavaScript `Map` modelled as an association list. -/
def mapGet (m : List (String × StreamEntry)) (k : String) : Option StreamEntry :=
  match m with
  | [] => none
  | (k₁, v) :: rest => if k₁ = k then some v else mapGet rest k

/-- Source: `Map.set`: replace in place when the key exists, else append. -/
def mapSet (m : List (String × StreamEntry)) (k : String) (v : StreamEntry) :
    List (String × StreamEntry) :=
  match m with
  | [] => [(k, v)]
  | (k₁, v₁) :: rest => if k₁ = k then (k, v) :: rest else (k₁, v₁) :: mapSet rest k v

/-- Source: `Map.delete`. -/
def mapDelete (m : List (String × StreamEntry)) (k : String) :
    List (String × StreamEntry) :=
  match m with
  | [] => []
  | (k₁, v₁) :: rest => if k₁ = k then mapDelete rest k else (k₁, v₁) :: mapDelete rest k

/-- The whole mutable state of the relay process, plus ghost logs:
`pushes` records every `sendPushNotification(userKey, {title, body, tag})`
call, `dispatches` every `dispatchInbound` invocation. -/
structure ServerState where
  users : String → UserState
  streaming : List (String × StreamEntry)
  fs : FS
  clock : Nat
  pushes : List (String × String × String × String)
  dispatches : List (String × String × Option Nat)

/-- Source: `getUserState`: the map lazily fills in a default entry, so the model
takes `users` total with this default. -/
def initialUserState : UserState :=
  { sequence := 0, eventBuffer := [], clients := [], emitLog := [] }

/-- Point update of the per-user state map. -/
def ServerState.setUser (s : ServerState) (u : String) (st : UserState) : ServerState :=
  { s with users := fun k => if k = u then st else s.users k }

/-! ## ws-server.ts: operations -/

/-- Source: `addToBuffer`: push, then `shift()` once when over capacity. -/
def pushEvict (buf : List (Nat × SEvent)) (x : Nat × SEvent) : List (Nat × SEvent) :=
  if EVENT_BUFFER_SIZE < (buf ++ [x]).length then (buf ++ [x]).tail else buf ++ [x]

/-- Source: `ws.send` on every registered socket of the user whose handle is `h`. -/
def sendToHandle (cs : List Client) (h : Nat) (e : SEvent) : List Client :=
  cs.map (fun c => if c.handle = h then { c with received := c.received ++ [e] } else c)

/-- Source: `broadcast`: assign the next sequence number, buffer the event, send its
serialization to every client socket in the open state. -/
def broadcastEvent (s : ServerState) (u : String) (mk : Nat → SEvent) : ServerState :=
  let st := s.users u
  let seq := st.sequence
  let ev := mk seq
  s.setUser u
    { sequence := st.sequence + 1,
      eventBuffer := pushEvict st.eventBuffer (seq, ev),
      clients := st.clients.map (fun c =>
        if c.isOpen then { c with received := c.received ++ [ev] } else c),
      emitLog := st.emitLog ++ [ev] }

/-- Source: `setStreamingText`: cancel any pending timer (its deadline is simply
replaced), arm a fresh 30 s timeout, record the text, broadcast `streaming`. -/
def setStreamingTextOp (s : ServerState) (u : String) (text : String) : ServerState :=
  let s₁ := { s with
    streaming := mapSet s.streaming u ⟨text, s.clock + STREAMING_TIMEOUT_MS⟩ }
  broadcastEvent s₁ u (fun q => .streaming text q)

/-- Source: `endStreaming`: cancel the timer, drop the entry, broadcast
`streaming_end`. -/
def endStreamingOp (s : ServerState) (u : String) : ServerState :=
  let s₁ := { s with streaming := mapDelete s.streaming u }
  broadcastEvent s₁ u (fun q => .streamingEnd q)

/-- The `setTimeout` callback armed by `setStreamingText`: it can run only
while its entry is still present (otherwise `clearTimeout` cancelled it) and
once the clock reached its deadline; it deletes the entry and broadcasts
`streaming_end`. -/
def fireTimerOp (s : ServerState) (u : String) : Option ServerState :=
  match mapGet s.streaming u with
  | none => none
  | some st =>
      if st.deadline ≤ s.clock then
        some (broadcastEvent { s with streaming := mapDelete s.streaming u } u
          (fun q => .streamingEnd q))
      else none

/-- Source: `normalizeTarget`: strip one leading `pwa-chat:`. -/
def normalizeTarget (target : String) : String :=
  if "pwa-chat:".data.isPrefixOf target.data then ⟨target.data.drop 9⟩ else target

/-- Source: `text.length > 100 ? text.slice(0, 100) + ellipsis : text`. -/
def previewOf (text : String) : String :=
  if 100 < text.data.length then ⟨text.data.take 100 ++ ['…']⟩ else text

/-- The `StoredMessage` literal built by `pushOutboundMessage`: role
`assistant`, and `...(mediaUrl && { mediaUrl })` adds the field only for a
truthy (non-empty) string. -/
def outboundMsg (msgId text : String) (ts : Int) (mediaUrl : Option String) : StoredMessage :=
  { id := msgId, text := text, timestamp := ts, role := .assistant,
    mediaUrl := match mediaUrl with
      | some mu => if mu = "" then none else some mu
      | none => none }

/-- Source: `pushOutboundMessage`: normalize the target, persist an assistant
message, broadcast it, and when the user has zero registered clients send one
push notification whose body is the 100-character preview.  `none` models the
`TypeError` that `appendMessage` raises when the stored file holds non-array
JSON. -/
def pushOutboundMessageOp (s : ServerState) (target text : String)
    (mediaUrl : Option String) (msgId : String) (ts : Int) : Option ServerState :=
  let u := normalizeTarget target
  let m : StoredMessage := outboundMsg msgId text ts mediaUrl
  match appendMessage s.fs u m with
  | none => none
  | some fs₁ =>
      let s₁ := broadcastEvent { s with fs := fs₁ } u (fun q => .message m q)
      let activeClients := (s₁.users u).clients.length
      some (if activeClients = 0 then
        { s₁ with pushes := s₁.pushes ++ [(u, "🦞 JKLobster", previewOf text, "pwa-chat-reply")] }
      else s₁)

/-- The `StoredMessage` literal built by the inbound message handler: role
`user`, with `hasImages`/`imageCount` present exactly when the `images` array
is present and non-empty. -/
def inboundMsg (msgId text : String) (ts : Int) (images : Option Nat) : StoredMessage :=
  { id := msgId, text := text, timestamp := ts, role := .user,
    images := match images with
      | some k => if 0 < k then some k else none
      | none => none }

/-- The `parsed.type === "message"` branch of the socket message handler:
trim, drop when the trimmed text is empty (the code tests only `!text`,
before ever looking at images), otherwise persist a user message carrying
image metadata when at least one image is attached, broadcast it, and invoke
`dispatchInbound` (recorded in the ghost log). -/
def clientMessageOp (s : ServerState) (u rawText : String) (images : Option Nat)
    (msgId : String) (ts : Int) : Option ServerState :=
  let text := jsTrim rawText
  if text = "" then some s
  else
    let m : StoredMessage := inboundMsg msgId text ts images
    match appendMessage s.fs u m with
    | none => none
    | some fs₁ =>
        let s₁ := broadcastEvent { s with fs := fs₁ } u (fun q => .message m q)
        some { s₁ with dispatches := s₁.dispatches ++ [(u, text, images)] }

/-- The `parsed.type === "ping"` branch: reply `pong` on that socket only,
with no sequence number consumed. -/
def clientPingOp (s : ServerState) (u : String) (h : Nat) : ServerState :=
  let st := s.users u
  s.setUser u { st with clients := sendToHandle st.clients h .pong }

/-- The shared full-sync emission: read the stored history, emit and buffer a
`history` event on the given socket, then, if a streaming state exists, emit
and buffer a `streaming` event on the same socket.  (These are direct
`ws.send` calls, not broadcasts: other sockets of the user do not receive
them.) -/
def fullSyncTo (s : ServerState) (u : String) (h : Nat) : ServerState :=
  let st := s.users u
  let historySeq := st.sequence
  let historyMsg := SEvent.history (readHistory s.fs u) historySeq
  let st₁ := { st with
    sequence := st.sequence + 1,
    eventBuffer := pushEvict st.eventBuffer (historySeq, historyMsg),
    clients := sendToHandle st.clients h historyMsg,
    emitLog := st.emitLog ++ [historyMsg] }
  match mapGet s.streaming u with
  | none => s.setUser u st₁
  | some cur =>
      let streamSeq := st₁.sequence
      let streamMsg := SEvent.streaming cur.text streamSeq
      s.setUser u { st₁ with
        sequence := st₁.sequence + 1,
        eventBuffer := pushEvict st₁.eventBuffer (streamSeq, streamMsg),
        clients := sendToHandle st₁.clients h streamMsg,
        emitLog := st₁.emitLog ++ [streamMsg] }

/-- The `parsed.type === "resync"` branch of the socket message handler. -/
def clientResyncOp (s : ServerState) (u : String) (h : Nat) : ServerState :=
  fullSyncTo s u h

/-- Source: `minBufferedSeq` of `handleConnection` (the counter itself when the
buffer is empty). -/
def bufMinSeq (st : UserState) : Nat :=
  match st.eventBuffer.head? with
  | none => st.sequence
  | some e => e.1

/-- Source: `maxBufferedSeq` of `handleConnection` (the counter itself when the
buffer is empty). -/
def bufMaxSeq (st : UserState) : Nat :=
  match st.eventBuffer.getLast? with
  | none => st.sequence
  | some e => e.1

/-- The reconnect test of `handleConnection`: non-empty `connection_id` and
`minBufferedSeq ≤ incomingSeq ≤ maxBufferedSeq`. -/
def adoptCond (st : UserState) (incomingCid : String) (incomingSeq : Int) : Prop :=
  incomingCid ≠ "" ∧ (bufMinSeq st : Int) ≤ incomingSeq ∧ incomingSeq ≤ (bufMaxSeq st : Int)

instance (st : UserState) (cid : String) (n : Int) : Decidable (adoptCond st cid n) :=
  inferInstanceAs (Decidable (cid ≠ "" ∧ (bufMinSeq st : Int) ≤ n ∧ n ≤ (bufMaxSeq st : Int)))

/-- Source: `handleConnection` up to the installation of the event handlers.
`incomingCid`/`incomingSeq` are the `connection_id`/`sequence_number` URL
parameters (`""`/`0` when absent), `uuid` the `randomUUID()` result and `h`
the identity of the freshly accepted socket.  The adopted-reconnect test and
both handshake branches follow the source line by line; the new socket's
handshake receipts are assembled on its own `received` list (the code adds
the client before sending, but nothing can interleave inside the
synchronous handshake). -/
def connectOp (s : ServerState) (u incomingCid : String) (incomingSeq : Int)
    (uuid : String) (h : Nat) : ServerState :=
  let st := s.users u
  if adoptCond st incomingCid incomingSeq then
    let helloMsg := SEvent.hello incomingCid st.sequence
    let missed := st.eventBuffer.filter (fun e => incomingSeq ≤ (e.1 : Int))
    let newClient : Client :=
      { handle := h, connectionId := incomingCid, isOpen := true,
        received := helloMsg :: missed.map Prod.snd }
    s.setUser u { st with
      sequence := st.sequence + 1,
      clients := st.clients ++ [newClient],
      emitLog := st.emitLog ++ [helloMsg] }
  else
    let helloMsg := SEvent.hello uuid st.sequence
    let newClient : Client :=
      { handle := h, connectionId := uuid, isOpen := true, received := [helloMsg] }
    let s₁ := s.setUser u { st with
      sequence := st.sequence + 1,
      clients := st.clients ++ [newClient],
      emitLog := st.emitLog ++ [helloMsg] }
    fullSyncTo s₁ u h

/-- Source: `removeClient` (run from the socket close/error handlers). -/
def disconnectOp (s : ServerState) (u : String) (h : Nat) : ServerState :=
  let st := s.users u
  s.setUser u { st with clients := st.clients.filter (fun c => c.handle ≠ h) }

/-- The transport moving a socket out of the open state (before its close
event runs): broadcasts skip it. -/
def closeSocketOp (s : ServerState) (u : String) (h : Nat) : ServerState :=
  let st := s.users u
  s.setUser u { st with clients := st.clients.map (fun c =>
    if c.handle = h then { c with isOpen := false } else c) }

/-! ## ws-server.ts: the transition system -/

/-- The externally triggered entry points of the relay.  Values the code
obtains from the environment (`randomUUID()`, `nextMessageId`, `Date.now()`,
socket identities, agent streaming callbacks) are parameters. -/
inductive Op where
  | connect : String → String → Int → String → Nat → Op
  | clientMsg : String → String → Option Nat → String → Int → Op
  | clientPing : String → Nat → Op
  | clientResync : String → Nat → Op
  | disconnect : String → Nat → Op
  | closeSocket : String → Nat → Op
  | pushOut : String → String → Option String → String → Int → Op
  | setStream : String → String → Op
  | endStream : String → Op
  | fireTimer : String → Op
  | tick : Nat → Op

/-- One externally triggered step.  `none` marks the runs the process cannot
take: a thrown `TypeError` in `appendMessage`, or a timer callback that was
cancelled or is not yet due. -/
def step (s : ServerState) : Op → Option ServerState
  | .connect u cid n uuid h => some (connectOp s u cid n uuid h)
  | .clientMsg u text images msgId ts => clientMessageOp s u text images msgId ts
  | .clientPing u h => some (clientPingOp s u h)
  | .clientResync u h => some (clientResyncOp s u h)
  | .disconnect u h => some (disconnectOp s u h)
  | .closeSocket u h => some (closeSocketOp s u h)
  | .pushOut target text mediaUrl msgId ts =>
      pushOutboundMessageOp s target text mediaUrl msgId ts
  | .setStream u text => some (setStreamingTextOp s u text)
  | .endStream u => some (endStreamingOp s u)
  | .fireTimer u => fireTimerOp s u
  | .tick dt => some { s with clock := s.clock + dt }

/-- Run a list of operations from a state. -/
def run (s : ServerState) : List Op → Option ServerState
  | [] => some s
  | op :: ops =>
      match step s op with
      | none => none
      | some s₁ => run s₁ ops

/-- The process state right after module load: empty maps, an arbitrary
pre-existing history directory. -/
def initState (fs : FS) : ServerState :=
  { users := fun _ => initialUserState, streaming := [], fs := fs, clock := 0,
    pushes := [], dispatches := [] }

/-- A state the relay can actually be in. -/
def Reachable (s : ServerState) : Prop :=
  ∃ fs ops, run (initState fs) ops = some s

/-! ## Observed quantities and reachability invariant -/

/-- Sequence numbers carried by a list of events, in order. -/
def seqsOf (l : List SEvent) : List Nat :=
  l.filterMap SEvent.seqOf

/-- The buffered projection of an emission log: every seq-bearing event
except `hello`, paired with its sequence number (`addToBuffer` is called on
exactly these events). -/
def bufEntries (l : List SEvent) : List (Nat × SEvent) :=
  l.filterMap (fun e => if e.isHello then none else e.seqOf.map (fun q => (q, e)))

/-- The last `EVENT_BUFFER_SIZE` entries of a list. -/
def takeRightCap (l : List (Nat × SEvent)) : List (Nat × SEvent) :=
  l.drop (l.length - EVENT_BUFFER_SIZE)

/-- Sequence numbers of the non-`hello` events in a list. -/
def nonHelloSeqs (l : List SEvent) : List Nat :=
  seqsOf (l.filter (fun e => !e.isHello))

/-- Per-user reachability invariant: the emitted sequence numbers are exactly
`0, 1, …, sequence−1` in order; the event buffer is the 500-entry tail of the
buffered (non-`hello`) emissions; each client socket has received the
non-`hello` events in strictly increasing seq order, every received seq lying
below the counter. -/
structure UserInv (st : UserState) : Prop where
  emitSeqs : seqsOf st.emitLog = List.range st.sequence
  buffer : st.eventBuffer = takeRightCap (bufEntries st.emitLog)
  recvMono : ∀ c ∈ st.clients, List.Pairwise (· < ·) (nonHelloSeqs c.received)
  recvBound : ∀ c ∈ st.clients, ∀ q ∈ seqsOf c.received, q < st.sequence

/-- Global reachability invariant. -/
def Inv (s : ServerState) : Prop :=
  (∀ u, UserInv (s.users u)) ∧ (s.streaming.map Prod.fst).Nodup

/-! ### List lemmas -/

theorem seqsOf_append (l₁ l₂ : List SEvent) :
    seqsOf (l₁ ++ l₂) = seqsOf l₁ ++ seqsOf l₂ := by
  simp [seqsOf]

theorem seqsOf_snoc (l : List SEvent) (e : SEvent) (q : Nat) (h : e.seqOf = some q) :
    seqsOf (l ++ [e]) = seqsOf l ++ [q] := by
  simp [seqsOf, h]

theorem seqsOf_snoc_pong (l : List SEvent) :
    seqsOf (l ++ [SEvent.pong]) = seqsOf l := by
  simp [seqsOf, SEvent.seqOf]

theorem bufEntries_snoc (l : List SEvent) (e : SEvent) (q : Nat)
    (hh : e.isHello = false) (hq : e.seqOf = some q) :
    bufEntries (l ++ [e]) = bufEntries l ++ [(q, e)] := by
  simp [bufEntries, hh, hq]

theorem bufEntries_snoc_hello (l : List SEvent) (cid : String) (q : Nat) :
    bufEntries (l ++ [SEvent.hello cid q]) = bufEntries l := by
  simp [bufEntries, SEvent.isHello]

theorem mem_bufEntries {l : List SEvent} {p : Nat × SEvent} (h : p ∈ bufEntries l) :
    p.2.seqOf = some p.1 ∧ p.2.isHello = false := by
  simp only [bufEntries, List.mem_filterMap] at h
  obtain ⟨e, -, he⟩ := h
  cases e with
  | hello cid q => simp [SEvent.isHello] at he
  | pong => simp [SEvent.isHello, SEvent.seqOf] at he
  | history j q =>
      simp only [SEvent.isHello, SEvent.seqOf, Bool.false_eq_true, ite_false,
        Option.map_some', Option.some.injEq] at he
      exact he ▸ ⟨rfl, rfl⟩
  | message m q =>
      simp only [SEvent.isHello, SEvent.seqOf, Bool.false_eq_true, ite_false,
        Option.map_some', Option.some.injEq] at he
      exact he ▸ ⟨rfl, rfl⟩
  | streaming txt q =>
      simp only [SEvent.isHello, SEvent.seqOf, Bool.false_eq_true, ite_false,
        Option.map_some', Option.some.injEq] at he
      exact he ▸ ⟨rfl, rfl⟩
  | streamingEnd q =>
      simp only [SEvent.isHello, SEvent.seqOf, Bool.false_eq_true, ite_false,
        Option.map_some', Option.some.injEq] at he
      exact he ▸ ⟨rfl, rfl⟩

theorem bufSeqs_sublist (l : List SEvent) :
    List.Sublist ((bufEntries l).map Prod.fst) (seqsOf l) := by
  induction l with
  | nil => simp [bufEntries, seqsOf]
  | cons e t ih =>
      cases e with
      | hello cid q =>
          simpa [bufEntries, seqsOf, SEvent.isHello, SEvent.seqOf, List.filterMap_cons]
            using List.Sublist.cons q ih
      | pong =>
          simpa [bufEntries, seqsOf, SEvent.isHello, SEvent.seqOf, List.filterMap_cons]
            using ih
      | history j q =>
          simpa [bufEntries, seqsOf, SEvent.isHello, SEvent.seqOf, List.filterMap_cons]
            using List.Sublist.cons₂ q ih
      | message m q =>
          simpa [bufEntries, seqsOf, SEvent.isHello, SEvent.seqOf, List.filterMap_cons]
            using List.Sublist.cons₂ q ih
      | streaming txt q =>
          simpa [bufEntries, seqsOf, SEvent.isHello, SEvent.seqOf, List.filterMap_cons]
            using List.Sublist.cons₂ q ih
      | streamingEnd q =>
          simpa [bufEntries, seqsOf, SEvent.isHello, SEvent.seqOf, List.filterMap_cons]
            using List.Sublist.cons₂ q ih

theorem takeRightCap_sublist (l : List (Nat × SEvent)) :
    List.Sublist (takeRightCap l) l :=
  List.drop_sublist _ _

theorem takeRightCap_length (l : List (Nat × SEvent)) :
    (takeRightCap l).length ≤ EVENT_BUFFER_SIZE := by
  simp only [takeRightCap, List.length_drop]
  omega

set_option maxRecDepth 4000 in
theorem takeRightCap_snoc (l : List (Nat × SEvent)) (x : Nat × SEvent) :
    pushEvict (takeRightCap l) x = takeRightCap (l ++ [x]) := by
  simp only [pushEvict, takeRightCap, EVENT_BUFFER_SIZE, List.length_append, List.length_cons,
    List.length_nil, List.length_drop]
  by_cases h : l.length < 500
  · have h0 : l.length - 500 = 0 := by omega
    have h1 : l.length + (0 + 1) - 500 = 0 := by omega
    rw [h0, h1]
    simp only [List.drop_zero]
    rw [if_neg (by omega)]
  · have h0 : l.length - (l.length - 500) + (0 + 1) = 501 := by omega
    rw [h0]
    rw [if_pos (by omega)]
    have hne : l.drop (l.length - 500) ≠ [] := by
      intro hnil
      have := congrArg List.length hnil
      simp only [List.length_drop, List.length_nil] at this
      omega
    have hdrop : (l ++ [x]).drop (l.length + (0 + 1) - 500)
        = l.drop (l.length + (0 + 1) - 500) ++ [x] :=
      List.drop_append_of_le_length (by omega)
    rw [List.tail_append_of_ne_nil hne, List.tail_drop, hdrop]
    congr 2
    omega

theorem pairwise_lt_snoc {l : List Nat} {n : Nat}
    (hc : List.Pairwise (· < ·) l) (hb : ∀ q ∈ l, q < n) :
    List.Pairwise (· < ·) (l ++ [n]) := by
  rw [List.pairwise_append]
  refine ⟨hc, List.pairwise_singleton _ n, ?_⟩
  intro x hx y hy
  simp only [List.mem_singleton] at hy
  subst hy
  exact hb x hx

theorem pairwise_lt_head_bound {n : Nat} :
    ∀ (l : List Nat), List.Pairwise (· < ·) l → (∀ q ∈ l, q < n) →
      ∀ p, l.head? = some p → p + l.length ≤ n := by
  intro l
  induction l with
  | nil => intro _ _ p hp; simp at hp
  | cons x t ih =>
      intro hc hb p hp
      rw [List.head?_cons] at hp
      cases hp
      cases t with
      | nil =>
          have := hb x (by simp)
          simp only [List.length_cons, List.length_nil]
          omega
      | cons y t₁ =>
          have hcy : x < y := (List.pairwise_cons.mp hc).1 y (by simp)
          have hc₁ : List.Pairwise (· < ·) (y :: t₁) := (List.pairwise_cons.mp hc).2
          have hb₁ : ∀ q ∈ y :: t₁, q < n := fun q hq => hb q (List.mem_cons_of_mem _ hq)
          have := ih hc₁ hb₁ y rfl
          simp only [List.length_cons] at *
          omega

/-! ### Map lemmas (streamingState) -/

theorem mapGet_mapSet_self (m : List (String × StreamEntry)) (k : String) (v : StreamEntry) :
    mapGet (mapSet m k v) k = some v := by
  induction m with
  | nil => simp [mapGet, mapSet]
  | cons p t ih =>
      by_cases h : p.1 = k
      · simp [mapGet, mapSet, h]
      · simp [mapGet, mapSet, h, ih]

theorem mapGet_mapDelete_self (m : List (String × StreamEntry)) (k : String) :
    mapGet (mapDelete m k) k = none := by
  induction m with
  | nil => simp [mapGet, mapDelete]
  | cons p t ih =>
      by_cases h : p.1 = k
      · simp [mapDelete, h, ih]
      · simp [mapGet, mapDelete, h, ih]

theorem mapSet_keys_subset (m : List (String × StreamEntry)) (k : String) (v : StreamEntry) :
    ∀ q ∈ (mapSet m k v).map Prod.fst, q = k ∨ q ∈ m.map Prod.fst := by
  induction m with
  | nil =>
      intro q hq
      simp only [mapSet, List.map_cons, List.map_nil, List.mem_singleton] at hq
      exact Or.inl hq
  | cons p t ih =>
      intro q hq
      by_cases h : p.1 = k
      · simp only [mapSet, h, ite_true, List.map_cons, List.mem_cons] at hq
        rcases hq with rfl | hq
        · exact Or.inl rfl
        · exact Or.inr (by simp only [List.map_cons, List.mem_cons]; exact Or.inr hq)
      · simp only [mapSet, h, ite_false, List.map_cons, List.mem_cons] at hq
        rcases hq with rfl | hq
        · exact Or.inr (by simp)
        · rcases ih q hq with h₁ | h₁
          · exact Or.inl h₁
          · exact Or.inr (by simp only [List.map_cons, List.mem_cons]; exact Or.inr h₁)

theorem mapSet_keys_nodup (m : List (String × StreamEntry)) (k : String) (v : StreamEntry)
    (h : (m.map Prod.fst).Nodup) : ((mapSet m k v).map Prod.fst).Nodup := by
  induction m with
  | nil => simp [mapSet]
  | cons p t ih =>
      simp only [List.map_cons, List.nodup_cons] at h
      by_cases hk : p.1 = k
      · simp only [mapSet, hk, ite_true, List.map_cons, List.nodup_cons]
        exact ⟨by rw [← hk]; exact h.1, h.2⟩
      · simp only [mapSet, hk, ite_false, List.map_cons, List.nodup_cons]
        refine ⟨fun hmem => ?_, ih h.2⟩
        rcases mapSet_keys_subset t k v _ hmem with rfl | h₁
        · exact hk rfl
        · exact h.1 h₁

theorem mapDelete_keys_sublist (m : List (String × StreamEntry)) (k : String) :
    List.Sublist ((mapDelete m k).map Prod.fst) (m.map Prod.fst) := by
  induction m with
  | nil => simp [mapDelete]
  | cons p t ih =>
      by_cases h : p.1 = k
      · simp only [mapDelete, h, ite_true, List.map_cons]
        exact ih.cons _
      · simp only [mapDelete, h, ite_false, List.map_cons]
        exact ih.cons₂ _

/-! ### Event-list lemmas for received logs -/

theorem nonHelloSeqs_append (l₁ l₂ : List SEvent) :
    nonHelloSeqs (l₁ ++ l₂) = nonHelloSeqs l₁ ++ nonHelloSeqs l₂ := by
  simp [nonHelloSeqs, seqsOf]

theorem nonHelloSeqs_sublist (l : List SEvent) :
    List.Sublist (nonHelloSeqs l) (seqsOf l) :=
  List.Sublist.filterMap _ (List.filter_sublist l)

theorem nonHelloSeqs_snoc (l : List SEvent) (e : SEvent) (q : Nat)
    (hh : e.isHello = false) (hq : e.seqOf = some q) :
    nonHelloSeqs (l ++ [e]) = nonHelloSeqs l ++ [q] := by
  rw [nonHelloSeqs_append]
  simp [nonHelloSeqs, seqsOf, List.filter_cons, hh, hq]

theorem nonHelloSeqs_snoc_hello (l : List SEvent) (cid : String) (q : Nat) :
    nonHelloSeqs (l ++ [SEvent.hello cid q]) = nonHelloSeqs l := by
  rw [nonHelloSeqs_append]
  simp [nonHelloSeqs, seqsOf, List.filter_cons, SEvent.isHello]

theorem nonHelloSeqs_snoc_pong (l : List SEvent) :
    nonHelloSeqs (l ++ [SEvent.pong]) = nonHelloSeqs l := by
  rw [nonHelloSeqs_append]
  simp [nonHelloSeqs, seqsOf, List.filter_cons, SEvent.isHello, SEvent.seqOf]

theorem nonHelloSeqs_map_snd :
    ∀ (le : List (Nat × SEvent)),
      (∀ p ∈ le, p.2.seqOf = some p.1 ∧ p.2.isHello = false) →
      nonHelloSeqs (le.map Prod.snd) = le.map Prod.fst := by
  intro le
  induction le with
  | nil => intro _; rfl
  | cons p t ih =>
      intro hall
      have hp := hall p (by simp)
      have ht := fun q hq => hall q (List.mem_cons_of_mem _ hq)
      have h1 : nonHelloSeqs [p.2] = [p.1] := by
        simp [nonHelloSeqs, seqsOf, List.filter_cons, hp.1, hp.2]
      calc nonHelloSeqs ((p :: t).map Prod.snd)
          = nonHelloSeqs ([p.2] ++ t.map Prod.snd) := by simp
        _ = [p.1] ++ (t.map Prod.fst) := by rw [nonHelloSeqs_append, h1, ih ht]
        _ = (p :: t).map Prod.fst := by simp

theorem seqsOf_map_snd :
    ∀ (le : List (Nat × SEvent)),
      (∀ p ∈ le, p.2.seqOf = some p.1) →
      seqsOf (le.map Prod.snd) = le.map Prod.fst := by
  intro le
  induction le with
  | nil => intro _; rfl
  | cons p t ih =>
      intro hall
      have hp := hall p (by simp)
      have ht := fun q hq => hall q (List.mem_cons_of_mem _ hq)
      simp only [List.map_cons, seqsOf, List.filterMap_cons, hp]
      rw [show List.filterMap SEvent.seqOf (t.map Prod.snd) = seqsOf (t.map Prod.snd) from rfl,
        ih ht]

/-! ### Facts derived from the invariant -/

theorem buffer_entry_props {st : UserState} (hinv : UserInv st) :
    ∀ p ∈ st.eventBuffer, p.2.seqOf = some p.1 ∧ p.2.isHello = false ∧ p.1 < st.sequence := by
  intro p hp
  rw [hinv.buffer] at hp
  have hp₁ : p ∈ bufEntries st.emitLog := (takeRightCap_sublist _).subset hp
  obtain ⟨h1, h2⟩ := mem_bufEntries hp₁
  refine ⟨h1, h2, ?_⟩
  have hm : p.1 ∈ (bufEntries st.emitLog).map Prod.fst := List.mem_map_of_mem _ hp₁
  have hm₁ := (bufSeqs_sublist st.emitLog).subset hm
  rw [hinv.emitSeqs] at hm₁
  exact List.mem_range.mp hm₁

theorem buffer_seqs_pairwise {st : UserState} (hinv : UserInv st) :
    List.Pairwise (· < ·) (st.eventBuffer.map Prod.fst) := by
  rw [hinv.buffer]
  have h1 := (takeRightCap_sublist (bufEntries st.emitLog)).map Prod.fst
  have h2 := h1.trans (bufSeqs_sublist st.emitLog)
  rw [hinv.emitSeqs] at h2
  exact List.Pairwise.sublist h2 (List.pairwise_lt_range _)

/-! ### Client-list update case analyses -/

theorem broadcast_clients_cases {cs : List Client} {ev : SEvent} {c' : Client}
    (h : c' ∈ cs.map (fun c =>
      if c.isOpen then { c with received := c.received ++ [ev] } else c)) :
    c' ∈ cs ∨ ∃ c ∈ cs, c' = { c with received := c.received ++ [ev] } := by
  obtain ⟨c, hc, rfl⟩ := List.mem_map.mp h
  by_cases ho : c.isOpen
  · exact Or.inr ⟨c, hc, by simp [ho]⟩
  · simp only [Bool.not_eq_true] at ho
    simp only [ho, Bool.false_eq_true, ite_false]
    exact Or.inl hc

theorem sendToHandle_cases {cs : List Client} {hh : Nat} {ev : SEvent} {c' : Client}
    (h : c' ∈ sendToHandle cs hh ev) :
    c' ∈ cs ∨ ∃ c ∈ cs, c' = { c with received := c.received ++ [ev] } := by
  obtain ⟨c, hc, rfl⟩ := List.mem_map.mp h
  by_cases hph : c.handle = hh
  · exact Or.inr ⟨c, hc, by simp [hph]⟩
  · simp only [hph, ite_false]
    exact Or.inl hc

/-! ### Preservation of the per-user invariant -/

theorem userInv_emitBuffered {st : UserState} (hinv : UserInv st) (ev : SEvent)
    (updClients : List Client)
    (hseq : ev.seqOf = some st.sequence) (hnh : ev.isHello = false)
    (hupd : ∀ c' ∈ updClients,
      c' ∈ st.clients ∨ ∃ c ∈ st.clients, c' = { c with received := c.received ++ [ev] }) :
    UserInv { sequence := st.sequence + 1,
              eventBuffer := pushEvict st.eventBuffer (st.sequence, ev),
              clients := updClients,
              emitLog := st.emitLog ++ [ev] } := by
  constructor
  · show seqsOf (st.emitLog ++ [ev]) = List.range (st.sequence + 1)
    rw [seqsOf_snoc _ _ _ hseq, hinv.emitSeqs, List.range_succ]
  · show pushEvict st.eventBuffer (st.sequence, ev) = takeRightCap (bufEntries (st.emitLog ++ [ev]))
    rw [bufEntries_snoc _ _ _ hnh hseq, hinv.buffer, takeRightCap_snoc]
  · intro c' hc'
    rcases hupd c' hc' with hold | ⟨c, hc, rfl⟩
    · exact hinv.recvMono c' hold
    · show List.Pairwise (· < ·) (nonHelloSeqs (c.received ++ [ev]))
      rw [nonHelloSeqs_snoc _ _ _ hnh hseq]
      exact pairwise_lt_snoc (hinv.recvMono c hc)
        (fun q hq => hinv.recvBound c hc q ((nonHelloSeqs_sublist _).subset hq))
  · intro c' hc' q hq
    show q < st.sequence + 1
    rcases hupd c' hc' with hold | ⟨c, hc, rfl⟩
    · exact Nat.lt_succ_of_lt (hinv.recvBound c' hold q hq)
    · simp only at hq
      rw [seqsOf_snoc _ _ _ hseq] at hq
      rcases List.mem_append.mp hq with h1 | h1
      · exact Nat.lt_succ_of_lt (hinv.recvBound c hc q h1)
      · simp only [List.mem_singleton] at h1
        omega

theorem userInv_emitHello {st : UserState} (hinv : UserInv st) (cid : String)
    (nc : Client)
    (hmono : List.Pairwise (· < ·) (nonHelloSeqs nc.received))
    (hbound : ∀ q ∈ seqsOf nc.received, q < st.sequence + 1) :
    UserInv { sequence := st.sequence + 1,
              eventBuffer := st.eventBuffer,
              clients := st.clients ++ [nc],
              emitLog := st.emitLog ++ [SEvent.hello cid st.sequence] } := by
  constructor
  · show seqsOf (st.emitLog ++ [SEvent.hello cid st.sequence]) = List.range (st.sequence + 1)
    rw [seqsOf_snoc st.emitLog (SEvent.hello cid st.sequence) st.sequence rfl,
      hinv.emitSeqs, List.range_succ]
  · show st.eventBuffer = takeRightCap (bufEntries (st.emitLog ++ [SEvent.hello cid st.sequence]))
    rw [bufEntries_snoc_hello, hinv.buffer]
  · intro c' hc'
    rcases List.mem_append.mp hc' with hold | hnew
    · exact hinv.recvMono c' hold
    · simp only [List.mem_singleton] at hnew
      subst hnew
      exact hmono
  · intro c' hc' q hq
    rcases List.mem_append.mp hc' with hold | hnew
    · exact Nat.lt_succ_of_lt (hinv.recvBound c' hold q hq)
    · simp only [List.mem_singleton] at hnew
      subst hnew
      exact hbound q hq

theorem userInv_clients_general {st : UserState} (hinv : UserInv st) (cs' : List Client)
    (hupd : ∀ c' ∈ cs', ∃ c ∈ st.clients,
      nonHelloSeqs c'.received = nonHelloSeqs c.received
      ∧ seqsOf c'.received = seqsOf c.received) :
    UserInv { st with clients := cs' } := by
  constructor
  · exact hinv.emitSeqs
  · exact hinv.buffer
  · intro c' hc'
    obtain ⟨c, hc, h1, -⟩ := hupd c' hc'
    rw [h1]
    exact hinv.recvMono c hc
  · intro c' hc' q hq
    obtain ⟨c, hc, -, h2⟩ := hupd c' hc'
    rw [h2] at hq
    exact hinv.recvBound c hc q hq

/-! ### Preservation of the global invariant by each operation -/

theorem users_setUser_self (s : ServerState) (u : String) (st : UserState) :
    (s.setUser u st).users u = st := by
  simp [ServerState.setUser]

theorem users_setUser_other (s : ServerState) (u v : String) (st : UserState) (h : v ≠ u) :
    (s.setUser u st).users v = s.users v := by
  simp [ServerState.setUser, h]

theorem setUser_streaming (s : ServerState) (u : String) (st : UserState) :
    (s.setUser u st).streaming = s.streaming := rfl

theorem setUser_fs (s : ServerState) (u : String) (st : UserState) :
    (s.setUser u st).fs = s.fs := rfl

theorem inv_broadcastEvent (s : ServerState) (u : String) (mk : Nat → SEvent)
    (hseq : (mk (s.users u).sequence).seqOf = some (s.users u).sequence)
    (hnh : (mk (s.users u).sequence).isHello = false)
    (hinv : Inv s) : Inv (broadcastEvent s u mk) := by
  obtain ⟨hu, hs⟩ := hinv
  refine ⟨?_, by simpa [broadcastEvent, ServerState.setUser] using hs⟩
  intro v
  by_cases hv : v = u
  · subst hv
    show UserInv ((broadcastEvent s v mk).users v)
    rw [show (broadcastEvent s v mk).users v
        = { sequence := (s.users v).sequence + 1,
            eventBuffer := pushEvict (s.users v).eventBuffer
              ((s.users v).sequence, mk (s.users v).sequence),
            clients := (s.users v).clients.map (fun c =>
              if c.isOpen then
                { c with received := c.received ++ [mk (s.users v).sequence] }
              else c),
            emitLog := (s.users v).emitLog ++ [mk (s.users v).sequence] } from by
      simp [broadcastEvent, ServerState.setUser]]
    exact userInv_emitBuffered (hu v) _ _ hseq hnh (fun c' hc' => broadcast_clients_cases hc')
  · rw [show (broadcastEvent s u mk).users v = s.users v from by
      simp [broadcastEvent, ServerState.setUser, hv]]
    exact hu v

theorem inv_fullSyncTo (s : ServerState) (u : String) (h : Nat) (hinv : Inv s) :
    Inv (fullSyncTo s u h) := by
  obtain ⟨hu, hs⟩ := hinv
  have hhist : (SEvent.history (readHistory s.fs u) (s.users u).sequence).seqOf
      = some (s.users u).sequence := rfl
  have huser₁ := userInv_emitBuffered (hu u)
    (SEvent.history (readHistory s.fs u) (s.users u).sequence)
    (sendToHandle (s.users u).clients h
      (SEvent.history (readHistory s.fs u) (s.users u).sequence))
    hhist rfl (fun c' hc' => sendToHandle_cases hc')
  cases hm : mapGet s.streaming u with
  | none =>
      refine ⟨?_, by simpa [fullSyncTo, hm, ServerState.setUser] using hs⟩
      intro v
      by_cases hv : v = u
      · subst hv
        simp only [fullSyncTo, hm, ServerState.setUser, if_pos rfl]
        exact huser₁
      · simp only [fullSyncTo, hm, ServerState.setUser, if_neg hv]
        exact hu v
  | some cur =>
      refine ⟨?_, by simpa [fullSyncTo, hm, ServerState.setUser] using hs⟩
      intro v
      by_cases hv : v = u
      · subst hv
        simp only [fullSyncTo, hm, ServerState.setUser, if_pos rfl]
        exact userInv_emitBuffered huser₁ _ _ rfl rfl
          (fun c' hc' => sendToHandle_cases hc')
      · simp only [fullSyncTo, hm, ServerState.setUser, if_neg hv]
        exact hu v

theorem nonHelloSeqs_cons_hello (l : List SEvent) (cid : String) (q : Nat) :
    nonHelloSeqs (SEvent.hello cid q :: l) = nonHelloSeqs l := by
  simp [nonHelloSeqs, seqsOf, List.filter_cons, SEvent.isHello]

theorem seqsOf_cons_hello (l : List SEvent) (cid : String) (q : Nat) :
    seqsOf (SEvent.hello cid q :: l) = q :: seqsOf l := by
  simp [seqsOf, List.filterMap_cons, SEvent.seqOf]

theorem inv_setUser_userInv (s : ServerState) (u : String) (st : UserState)
    (hinv : Inv s) (hst : UserInv st) : Inv (s.setUser u st) := by
  obtain ⟨hu, hs⟩ := hinv
  refine ⟨fun v => ?_, by simpa [ServerState.setUser] using hs⟩
  by_cases hv : v = u
  · subst hv
    rw [users_setUser_self]
    exact hst
  · rw [users_setUser_other _ _ _ _ hv]
    exact hu v

theorem inv_connectOp (s : ServerState) (u cid : String) (n : Int) (uuid : String) (h : Nat)
    (hinv : Inv s) : Inv (connectOp s u cid n uuid h) := by
  have hu := hinv.1
  by_cases hA : adoptCond (s.users u) cid n
  · have hprops := buffer_entry_props (hu u)
    have hmiss : ∀ p ∈ (s.users u).eventBuffer.filter (fun e => n ≤ (e.1 : Int)),
        p.2.seqOf = some p.1 ∧ p.2.isHello = false := by
      intro p hp
      have := hprops p (List.mem_of_mem_filter hp)
      exact ⟨this.1, this.2.1⟩
    have hmseq := nonHelloSeqs_map_snd _ hmiss
    have hsseq := seqsOf_map_snd
      ((s.users u).eventBuffer.filter (fun e => n ≤ (e.1 : Int)))
      (fun p hp => (hmiss p hp).1)
    have hmono : List.Pairwise (· < ·)
        (((s.users u).eventBuffer.filter (fun e => n ≤ (e.1 : Int))).map Prod.fst) :=
      List.Pairwise.sublist ((List.filter_sublist _).map Prod.fst)
        (buffer_seqs_pairwise (hu u))
    simp only [connectOp, if_pos hA]
    refine inv_setUser_userInv s u _ hinv (userInv_emitHello (hu u) cid _ ?_ ?_)
    · show List.Pairwise (· < ·) (nonHelloSeqs (SEvent.hello cid (s.users u).sequence
        :: ((s.users u).eventBuffer.filter (fun e => n ≤ (e.1 : Int))).map Prod.snd))
      rw [nonHelloSeqs_cons_hello, hmseq]
      exact hmono
    · show ∀ q ∈ seqsOf (SEvent.hello cid (s.users u).sequence
        :: ((s.users u).eventBuffer.filter (fun e => n ≤ (e.1 : Int))).map Prod.snd),
        q < (s.users u).sequence + 1
      rw [seqsOf_cons_hello, hsseq]
      intro q hq
      rcases List.mem_cons.mp hq with rfl | hq
      · omega
      · obtain ⟨p, hp, rfl⟩ := List.mem_map.mp hq
        have := (hprops p (List.mem_of_mem_filter hp)).2.2
        omega
  · simp only [connectOp, if_neg hA]
    refine inv_fullSyncTo _ u h (inv_setUser_userInv s u _ hinv ?_)
    refine userInv_emitHello (hu u) uuid _ ?_ ?_
    · show List.Pairwise (· < ·) (nonHelloSeqs [SEvent.hello uuid (s.users u).sequence])
      simp [nonHelloSeqs, seqsOf, List.filter_cons, SEvent.isHello]
    · show ∀ q ∈ seqsOf [SEvent.hello uuid (s.users u).sequence], q < (s.users u).sequence + 1
      intro q hq
      simp only [seqsOf, List.filterMap_cons, SEvent.seqOf, List.filterMap_nil,
        List.mem_singleton] at hq
      omega

theorem inv_clientPingOp (s : ServerState) (u : String) (h : Nat) (hinv : Inv s) :
    Inv (clientPingOp s u h) := by
  refine inv_setUser_userInv s u _ hinv (userInv_clients_general (hinv.1 u) _ ?_)
  intro c' hc'
  rcases sendToHandle_cases hc' with hold | ⟨c, hc, rfl⟩
  · exact ⟨c', hold, rfl, rfl⟩
  · exact ⟨c, hc, by simp [nonHelloSeqs_snoc_pong], by simp [seqsOf_snoc_pong]⟩

theorem inv_disconnectOp (s : ServerState) (u : String) (h : Nat) (hinv : Inv s) :
    Inv (disconnectOp s u h) := by
  refine inv_setUser_userInv s u _ hinv (userInv_clients_general (hinv.1 u) _ ?_)
  intro c' hc'
  exact ⟨c', List.mem_of_mem_filter hc', rfl, rfl⟩

theorem inv_closeSocketOp (s : ServerState) (u : String) (h : Nat) (hinv : Inv s) :
    Inv (closeSocketOp s u h) := by
  refine inv_setUser_userInv s u _ hinv (userInv_clients_general (hinv.1 u) _ ?_)
  intro c' hc'
  obtain ⟨c, hc, rfl⟩ := List.mem_map.mp hc'
  by_cases hh : c.handle = h
  · exact ⟨c, hc, by simp [hh], by simp [hh]⟩
  · exact ⟨c, hc, by simp [hh], by simp [hh]⟩

theorem inv_setStreamingTextOp (s : ServerState) (u text : String) (hinv : Inv s) :
    Inv (setStreamingTextOp s u text) := by
  obtain ⟨hu, hs⟩ := hinv
  exact inv_broadcastEvent _ u _ rfl rfl ⟨hu, mapSet_keys_nodup _ _ _ hs⟩

theorem inv_endStreamingOp (s : ServerState) (u : String) (hinv : Inv s) :
    Inv (endStreamingOp s u) := by
  obtain ⟨hu, hs⟩ := hinv
  exact inv_broadcastEvent _ u _ rfl rfl
    ⟨hu, List.Pairwise.sublist (mapDelete_keys_sublist _ _) hs⟩

theorem inv_fireTimerOp (s s₁ : ServerState) (u : String)
    (h : fireTimerOp s u = some s₁) (hinv : Inv s) : Inv s₁ := by
  obtain ⟨hu, hs⟩ := hinv
  unfold fireTimerOp at h
  cases hm : mapGet s.streaming u with
  | none =>
      simp only [hm] at h
      cases h
  | some st =>
      simp only [hm] at h
      by_cases hd : st.deadline ≤ s.clock
      · rw [if_pos hd] at h
        simp only [Option.some.injEq] at h
        rw [← h]
        exact inv_broadcastEvent _ u _ rfl rfl
          ⟨hu, List.Pairwise.sublist (mapDelete_keys_sublist _ _) hs⟩
      · rw [if_neg hd] at h
        cases h

theorem inv_pushOutboundMessageOp (s s₁ : ServerState) (target text : String)
    (mediaUrl : Option String) (msgId : String) (ts : Int)
    (h : pushOutboundMessageOp s target text mediaUrl msgId ts = some s₁)
    (hinv : Inv s) : Inv s₁ := by
  obtain ⟨hu, hs⟩ := hinv
  simp only [pushOutboundMessageOp] at h
  split at h
  · cases h
  · simp only [Option.some.injEq] at h
    rw [← h]
    split
    · exact inv_broadcastEvent _ _ _ rfl rfl ⟨hu, hs⟩
    · exact inv_broadcastEvent _ _ _ rfl rfl ⟨hu, hs⟩

theorem inv_clientMessageOp (s s₁ : ServerState) (u rawText : String)
    (images : Option Nat) (msgId : String) (ts : Int)
    (h : clientMessageOp s u rawText images msgId ts = some s₁)
    (hinv : Inv s) : Inv s₁ := by
  obtain ⟨hu, hs⟩ := hinv
  simp only [clientMessageOp] at h
  by_cases ht : jsTrim rawText = ""
  · rw [if_pos ht] at h
    simp only [Option.some.injEq] at h
    rw [← h]
    exact ⟨hu, hs⟩
  · rw [if_neg ht] at h
    split at h
    · cases h
    · simp only [Option.some.injEq] at h
      rw [← h]
      exact inv_broadcastEvent _ _ _ rfl rfl ⟨hu, hs⟩

theorem inv_step (s s₁ : ServerState) (op : Op) (h : step s op = some s₁)
    (hinv : Inv s) : Inv s₁ := by
  cases op with
  | connect u cid n uuid hh =>
      simp only [step, Option.some.injEq] at h
      rw [← h]
      exact inv_connectOp s u cid n uuid hh hinv
  | clientMsg u text images msgId ts =>
      exact inv_clientMessageOp s s₁ u text images msgId ts h hinv
  | clientPing u hh =>
      simp only [step, Option.some.injEq] at h
      rw [← h]
      exact inv_clientPingOp s u hh hinv
  | clientResync u hh =>
      simp only [step, Option.some.injEq] at h
      rw [← h]
      exact inv_fullSyncTo s u hh hinv
  | disconnect u hh =>
      simp only [step, Option.some.injEq] at h
      rw [← h]
      exact inv_disconnectOp s u hh hinv
  | closeSocket u hh =>
      simp only [step, Option.some.injEq] at h
      rw [← h]
      exact inv_closeSocketOp s u hh hinv
  | pushOut target text mediaUrl msgId ts =>
      exact inv_pushOutboundMessageOp s s₁ target text mediaUrl msgId ts h hinv
  | setStream u text =>
      simp only [step, Option.some.injEq] at h
      rw [← h]
      exact inv_setStreamingTextOp s u text hinv
  | endStream u =>
      simp only [step, Option.some.injEq] at h
      rw [← h]
      exact inv_endStreamingOp s u hinv
  | fireTimer u =>
      exact inv_fireTimerOp s s₁ u h hinv
  | tick dt =>
      simp only [step, Option.some.injEq] at h
      rw [← h]
      exact ⟨hinv.1, hinv.2⟩

theorem inv_run : ∀ (ops : List Op) (s s₁ : ServerState),
    run s ops = some s₁ → Inv s → Inv s₁ := by
  intro ops
  induction ops with
  | nil =>
      intro s s₁ h hi
      simp only [run, Option.some.injEq] at h
      rw [← h]
      exact hi
  | cons op rest ih =>
      intro s s₁ h hi
      simp only [run] at h
      cases hstep : step s op with
      | none => rw [hstep] at h; cases h
      | some s₂ =>
          rw [hstep] at h
          exact ih s₂ s₁ h (inv_step s s₂ op hstep hi)

theorem inv_initState (fs : FS) : Inv (initState fs) := by
  refine ⟨fun u => ?_, by simp [initState]⟩
  constructor
  · simp [initState, initialUserState, seqsOf]
  · simp [initState, initialUserState, bufEntries, takeRightCap]
  · intro c hc
    simp [initState, initialUserState] at hc
  · intro c hc
    simp [initState, initialUserState] at hc

theorem inv_reachable (s : ServerState) (h : Reachable s) : Inv s := by
  obtain ⟨fs, ops, hrun⟩ := h
  exact inv_run ops _ s hrun (inv_initState fs)

/-! ## Claims on the message store and the auth gate -/

/-- The empty history directory. -/
def fsEmpty : FS := fun _ => none

/-- A fixed sample message used by concrete witnesses. -/
def mW : StoredMessage := { id := "m1", text := "hi", timestamp := 0, role := .user }

theorem shiftWhileAux_eq_drop :
    ∀ (fuel : Nat) (l : List Json), l.length ≤ fuel + MAX_HISTORY →
      shiftWhileAux fuel l = l.drop (l.length - MAX_HISTORY) := by
  intro fuel
  induction fuel with
  | zero =>
      intro l hl
      have h0 : l.length - MAX_HISTORY = 0 := by omega
      rw [h0, List.drop_zero]
      rfl
  | succ k ih =>
      intro l hl
      by_cases hgt : l.length > MAX_HISTORY
      · simp only [shiftWhileAux, if_pos hgt]
        rw [ih l.tail (by simp only [List.length_tail]; omega)]
        rw [List.length_tail, ← List.drop_one, List.drop_drop]
        have harg : 1 + (l.length - 1 - MAX_HISTORY) = l.length - MAX_HISTORY := by omega
        rw [harg]
      · simp only [shiftWhileAux, if_neg hgt]
        have h0 : l.length - MAX_HISTORY = 0 := by omega
        rw [h0, List.drop_zero]

theorem shiftWhile_eq_drop (l : List Json) :
    shiftWhile l = l.drop (l.length - MAX_HISTORY) :=
  shiftWhileAux_eq_drop l.length l (by omega)

/-- C4: reading back after `appendMessage(U, m)` yields the previous history
with the encoding of `m` appended and then left-truncated to `MAX_HISTORY`
entries; the result never exceeds `MAX_HISTORY` entries, and an append to a
full log drops exactly the oldest entry.  (The hypothesis says the stored
file currently parses to an array — which covers a missing or corrupt file,
both read as `[]`; on any other JSON value `msgs.push` would throw.) -/
theorem appendMessage_truncates (fs : FS) (u : String) (m : StoredMessage)
    (msgs : List Json) (hread : readHistory fs u = Json.arr msgs) :
    ∃ fs₁, appendMessage fs u m = some fs₁
      ∧ readHistory fs₁ u
          = Json.arr ((msgs ++ [encodeMsg m]).drop ((msgs.length + 1) - MAX_HISTORY))
      ∧ (∀ l, readHistory fs₁ u = Json.arr l → l.length ≤ MAX_HISTORY)
      ∧ (msgs.length = MAX_HISTORY →
          readHistory fs₁ u = Json.arr (msgs.drop 1 ++ [encodeMsg m])) := by
  have hdrop : shiftWhile (msgs ++ [encodeMsg m])
      = (msgs ++ [encodeMsg m]).drop ((msgs.length + 1) - MAX_HISTORY) := by
    rw [shiftWhile_eq_drop]
    simp [List.length_append]
  have hread₁ : readHistory (fun k => if k = sanitizeFileName u
        then some (.json (.arr (shiftWhile (msgs ++ [encodeMsg m])))) else fs k) u
      = Json.arr (shiftWhile (msgs ++ [encodeMsg m])) := by
    simp [readHistory]
  refine ⟨_, by unfold appendMessage; rw [hread], ?_, ?_, ?_⟩
  · rw [hread₁, hdrop]
  · intro l hl
    rw [hread₁, hdrop] at hl
    injection hl with hl
    subst hl
    simp only [List.length_drop, List.length_append, List.length_cons, List.length_nil]
    omega
  · intro hfull
    rw [hread₁, hdrop, hfull]
    have h1 : MAX_HISTORY + 1 - MAX_HISTORY = 1 := by omega
    rw [h1, List.drop_append_of_le_length (by rw [hfull]; decide)]

/-- C4 witness: appending to the empty history of a fresh user. -/
theorem appendMessage_truncates_witness :
    ∃ fs₁, appendMessage fsEmpty "u1" mW = some fs₁
      ∧ readHistory fs₁ "u1"
          = Json.arr ((([] : List Json) ++ [encodeMsg mW]).drop
              ((([] : List Json).length + 1) - MAX_HISTORY))
      ∧ (∀ l, readHistory fs₁ "u1" = Json.arr l → l.length ≤ MAX_HISTORY)
      ∧ (([] : List Json).length = MAX_HISTORY →
          readHistory fs₁ "u1" = Json.arr (([] : List Json).drop 1 ++ [encodeMsg mW])) :=
  appendMessage_truncates fsEmpty "u1" mW [] rfl

/-- C9 as stated: the result of `readHistory` is always a well-formed list of
stored messages. -/
def claimC9 (fs : FS) : Prop :=
  ∀ u, ∃ msgs : List StoredMessage, readHistory fs u = Json.arr (msgs.map encodeMsg)

/-- A history file whose contents are valid JSON but not an array: exactly
what an unchecked `JSON.parse(...) as StoredMessage[]` lets through. -/
def fsNumber : FS := fun k => if k = "user" then some (.json (.num 42)) else none

/-- C9 counterexample: on a file containing the JSON number `42`, the
`JSON.parse` succeeds, the `catch` is not taken, and `readHistory` returns
`42` — not a list of `StoredMessage` at all. -/
theorem readHistory_unvalidated_cex :
    readHistory fsNumber "user" = Json.num 42 ∧ ¬ claimC9 fsNumber := by
  refine ⟨rfl, fun hcl => ?_⟩
  obtain ⟨msgs, hm⟩ := hcl "user"
  rw [show readHistory fsNumber "user" = Json.num 42 from rfl] at hm
  exact Json.noConfusion hm

/-- C9 (amended): `readHistory` is total and returns `[]` when the file is
missing or `JSON.parse` throws; otherwise it returns the parsed JSON value
unvalidated (a well-formed message list only when the file actually holds
one). -/
theorem readHistory_total (fs : FS) (u : String) :
    (fs (sanitizeFileName u) = none → readHistory fs u = Json.arr [])
  ∧ (fs (sanitizeFileName u) = some FileContent.junk → readHistory fs u = Json.arr [])
  ∧ (∀ j, fs (sanitizeFileName u) = some (FileContent.json j) → readHistory fs u = j) := by
  refine ⟨fun h => ?_, fun h => ?_, fun j h => ?_⟩ <;> simp [readHistory, h]

/-- C9 witness: a missing file reads as the empty array. -/
theorem readHistory_total_witness : readHistory fsEmpty "user" = Json.arr [] :=
  (readHistory_total fsEmpty "user").1 rfl

/-- C10: the store identifies users only through the sanitized file name:
two user keys with equal sanitizations always read the same history, and an
append under one key is read back under the other. -/
theorem sanitized_key_collision (fs : FS) (u₁ u₂ : String) (m : StoredMessage)
    (hsan : sanitizeFileName u₁ = sanitizeFileName u₂) :
    readHistory fs u₁ = readHistory fs u₂
  ∧ ∀ fs₁ msgs, appendMessage fs u₁ m = some fs₁ → readHistory fs u₁ = Json.arr msgs →
      readHistory fs₁ u₂ = Json.arr (shiftWhile (msgs ++ [encodeMsg m])) := by
  constructor
  · simp [readHistory, hsan]
  · intro fs₁ msgs happ hread
    unfold appendMessage at happ
    rw [hread] at happ
    simp only [Option.some.injEq] at happ
    rw [← happ]
    simp [readHistory, ← hsan]

/-- C10 witness: the colliding keys `"a:b"` and `"a_b"` (both sanitize to
`"a_b"`). -/
theorem sanitized_key_collision_witness :
    readHistory fsEmpty "a:b" = readHistory fsEmpty "a_b"
  ∧ ∀ fs₁ msgs, appendMessage fsEmpty "a:b" mW = some fs₁ →
      readHistory fsEmpty "a:b" = Json.arr msgs →
      readHistory fs₁ "a_b" = Json.arr (shiftWhile (msgs ++ [encodeMsg mW])) :=
  sanitized_key_collision fsEmpty "a:b" "a_b" mW rfl

/-- C7: `checkAuth` accepts exactly when one of the four specified paths
accepts: trusted-proxy header, loopback peer, no configured token, or a
caller-provided secret (`Authorization` with optional `Bearer` prefix
stripped if present, else `X-Auth-Token` if present, else the `token` query
parameter) equal to the configured token. -/
theorem checkAuth_iff_spec (req : AuthRequest) (cfg : AuthConfig) :
    checkAuth req cfg = true ↔ checkAuthSpec req cfg := by
  unfold checkAuth checkAuthSpec
  split_ifs with h1 h2 h3 <;> simp_all

/-! ## Claims on the relay state machine -/

/-- C1 exactly as stated: (a) as long as no more events were emitted than the
buffer capacity nothing can have been evicted, so every emitted seq-bearing
event (each connection's hello included) should occupy a buffer slot; (b) the
smallest buffered seq should equal `max(0, sequence − len(buffer))`, which is
truncated subtraction. -/
def claimC1 (st : UserState) : Prop :=
  (st.emitLog.length ≤ EVENT_BUFFER_SIZE →
      ∀ q ∈ seqsOf st.emitLog, q ∈ st.eventBuffer.map Prod.fst)
  ∧ (∀ p, st.eventBuffer.head? = some p → p.1 = st.sequence - st.eventBuffer.length)

/-- Two plain first connections of one user. -/
def cexTrace1 : List Op := [.connect "u" "" 0 "A" 0, .connect "u" "" 0 "B" 1]

/-- The state after `cexTrace1`. -/
def sCex1 : ServerState := (run (initState fsEmpty) cexTrace1).getD (initState fsEmpty)

/-- C1 counterexample: after two connections the buffer holds only the two
history events (seqs 1 and 3) — the two hellos (seqs 0 and 2) consumed seqs
but were never buffered — so the smallest buffered seq is 1 while
`sequence − len(buffer)` is 4 − 2 = 2. -/
theorem eventBuffer_claim_cex :
    run (initState fsEmpty) cexTrace1 = some sCex1
    ∧ (sCex1.users "u").eventBuffer.map Prod.fst = [1, 3]
    ∧ seqsOf (sCex1.users "u").emitLog = [0, 1, 2, 3]
    ∧ (sCex1.users "u").sequence - (sCex1.users "u").eventBuffer.length = 2
    ∧ ¬ claimC1 (sCex1.users "u") := by
  refine ⟨rfl, rfl, rfl, rfl, fun hcl => ?_⟩
  have h2 := hcl.2 (1, SEvent.history (Json.arr []) 1) rfl
  exact absurd h2 (by decide)

/-- C1 (amended): for every user at every reachable state, the event buffer
is exactly the at-most-500 most recent buffered emissions — all seq-bearing
events except `hello`, which consumes a seq but never occupies a buffer
slot — in emission order with strictly increasing seqs, every buffered seq
below the counter; consequently the smallest buffered seq is at most
`sequence − len(buffer)` (with equality exactly when no hello intervened in
the buffered window). -/
theorem eventBuffer_inv (s : ServerState) (hr : Reachable s) (u : String) :
    (s.users u).eventBuffer = takeRightCap (bufEntries (s.users u).emitLog)
  ∧ List.Pairwise (· < ·) ((s.users u).eventBuffer.map Prod.fst)
  ∧ (s.users u).eventBuffer.length ≤ EVENT_BUFFER_SIZE
  ∧ (∀ p ∈ (s.users u).eventBuffer,
      p.2.isHello = false ∧ p.2.seqOf = some p.1 ∧ p.1 < (s.users u).sequence)
  ∧ (∀ p, (s.users u).eventBuffer.head? = some p →
      p.1 + (s.users u).eventBuffer.length ≤ (s.users u).sequence) := by
  have hinv := (inv_reachable s hr).1 u
  refine ⟨hinv.buffer, buffer_seqs_pairwise hinv, ?_, ?_, ?_⟩
  · rw [hinv.buffer]
    exact takeRightCap_length _
  · intro p hp
    have := buffer_entry_props hinv p hp
    exact ⟨this.2.1, this.1, this.2.2⟩
  · intro p hp
    have hpar := buffer_seqs_pairwise hinv
    have hbnd : ∀ q ∈ (s.users u).eventBuffer.map Prod.fst, q < (s.users u).sequence := by
      intro q hq
      obtain ⟨p₁, hp₁, rfl⟩ := List.mem_map.mp hq
      exact (buffer_entry_props hinv p₁ hp₁).2.2
    have hh : ((s.users u).eventBuffer.map Prod.fst).head? = some p.1 := by
      cases hb : (s.users u).eventBuffer with
      | nil => rw [hb] at hp; cases hp
      | cons a t =>
          rw [hb] at hp
          rw [List.head?_cons] at hp
          cases hp
          simp [hb]
    have := pairwise_lt_head_bound _ hpar hbnd p.1 hh
    simpa using this

/-- C1 witness: the amended invariant evaluated on the concrete state after
`cexTrace1`. -/
theorem eventBuffer_inv_witness :
    (sCex1.users "u").eventBuffer = takeRightCap (bufEntries (sCex1.users "u").emitLog) :=
  (eventBuffer_inv sCex1 ⟨fsEmpty, cexTrace1, rfl⟩ "u").1

/-- The delivery-order clause of C3, phrased on sequence numbers (per-user
seq-bearing events are in bijection with their seqs by the gapless-emission
clause): whenever a client received two consecutively emitted events (seqs
`i` and `i+1`), it must have received seq `i+1` before any received seq
larger than `i+1`. -/
def claimC3deliv (st : UserState) : Bool :=
  st.clients.all fun c =>
    (List.range st.sequence).all fun i =>
      !(decide (i + 1 < st.sequence))
      || !((seqsOf c.received).contains i)
      || !((seqsOf c.received).contains (i + 1))
      || (seqsOf c.received).all fun j =>
            !(decide (i + 1 < j))
            || decide ((seqsOf c.received).indexOf (i + 1) < (seqsOf c.received).indexOf j)

/-- Connect, one outbound message, drop, reconnect inside the buffer. -/
def cexTrace3 : List Op := [.connect "u" "" 0 "A" 0, .pushOut "pwa-chat:u" "x" none "m1" 5,
  .disconnect "u" 0, .connect "u" "A" 1 "B" 1]

/-- The state after `cexTrace3`. -/
def sCex3 : ServerState := (run (initState fsEmpty) cexTrace3).getD (initState fsEmpty)

/-- C3 counterexample: the reconnecting socket is sent its hello (which
consumed the newest seq, 3) before the replayed buffered events with seqs 1
and 2, so it receives the consecutive event seq 2 after the larger seq 3 —
the claim's delivery clause fails even though emission seqs 0,1,2,3 are
gapless. -/
theorem delivery_order_claim_cex :
    run (initState fsEmpty) cexTrace3 = some sCex3
    ∧ (sCex3.users "u").clients.map (fun c => seqsOf c.received) = [[3, 1, 2]]
    ∧ seqsOf (sCex3.users "u").emitLog = [0, 1, 2, 3]
    ∧ claimC3deliv (sCex3.users "u") = false :=
  ⟨rfl, rfl, rfl, rfl⟩

/-- C3 (amended): at every reachable state the seq-bearing events emitted for
a user carry exactly the sequence numbers `0, 1, …, sequence−1` in emission
order — each emission increments the counter exactly once and attaches the
pre-increment value, so consecutive emitted events differ by exactly 1 with
no gaps — and every client's received non-`hello` events have strictly
increasing seqs.  The exception the original claim misses is the `hello` of a
catch-up reconnect, which carries the newest seq yet is sent before the
replayed older buffered events. -/
theorem seq_emission_order (s : ServerState) (hr : Reachable s) (u : String) :
    seqsOf (s.users u).emitLog = List.range (s.users u).sequence
  ∧ List.Chain' (fun a b => b = a + 1) (seqsOf (s.users u).emitLog)
  ∧ (∀ c ∈ (s.users u).clients, List.Pairwise (· < ·) (nonHelloSeqs c.received)) := by
  have hinv := (inv_reachable s hr).1 u
  refine ⟨hinv.emitSeqs, ?_, hinv.recvMono⟩
  rw [hinv.emitSeqs]
  cases hn : (s.users u).sequence with
  | zero => simp
  | succ k =>
      rw [List.chain'_range_succ]
      intro m hm
      rfl

/-- C3 witness: the amended statement evaluated on the concrete state after
`cexTrace3`. -/
theorem seq_emission_order_witness :
    seqsOf (sCex3.users "u").emitLog = List.range (sCex3.users "u").sequence :=
  (seq_emission_order sCex3 ⟨fsEmpty, cexTrace3, rfl⟩ "u").1

theorem sendToHandle_fresh (cs : List Client) (hh : Nat)
    (hf : ∀ c ∈ cs, c.handle ≠ hh) : ∀ ev, sendToHandle cs hh ev = cs := by
  intro ev
  induction cs with
  | nil => rfl
  | cons c t ih =>
      simp only [sendToHandle, List.map_cons, if_neg (hf c (by simp))]
      have ht := ih (fun c₁ hc₁ => hf c₁ (List.mem_cons_of_mem _ hc₁))
      simp only [sendToHandle] at ht
      rw [ht]

theorem sendToHandle_append_self (cs : List Client) (hh : Nat) (nc : Client)
    (hnc : nc.handle = hh) :
    ∀ ev, sendToHandle (cs ++ [nc]) hh ev
      = sendToHandle cs hh ev ++ [{ nc with received := nc.received ++ [ev] }] := by
  intro ev
  simp [sendToHandle, List.map_append, hnc]

/-- C2 (amended): the two branches of the handshake, with the empty-buffer
case folded into `adoptCond` exactly as the code computes it (an empty buffer
makes both bounds equal to the current sequence value).  In the adopt branch
the supplied connection id is kept and, after the hello, exactly the buffered
events with seq ≥ n are sent in buffer order, and the emission log grows by
the hello alone — no history event is freshly emitted (a replayed buffered
event may itself be an old history event).  In the other branch a fresh
connection id is used and the socket receives hello, then a history event
carrying the full stored log, then a streaming event exactly when a
streaming state exists.  `hfresh` states that the accepted socket is a new
object, distinct from every registered client. -/
theorem connect_handshake (s : ServerState) (u cid : String) (n : Int) (uuid : String)
    (hh : Nat) (hfresh : ∀ c ∈ (s.users u).clients, c.handle ≠ hh) :
    (adoptCond (s.users u) cid n →
      ∃ c, ((connectOp s u cid n uuid hh).users u).clients = (s.users u).clients ++ [c]
        ∧ c.connectionId = cid
        ∧ c.received = SEvent.hello cid (s.users u).sequence
            :: ((s.users u).eventBuffer.filter (fun e => n ≤ (e.1 : Int))).map Prod.snd
        ∧ ((connectOp s u cid n uuid hh).users u).emitLog
            = (s.users u).emitLog ++ [SEvent.hello cid (s.users u).sequence])
  ∧ (¬ adoptCond (s.users u) cid n →
      ∃ c, ((connectOp s u cid n uuid hh).users u).clients = (s.users u).clients ++ [c]
        ∧ c.connectionId = uuid
        ∧ c.received = SEvent.hello uuid (s.users u).sequence
            :: SEvent.history (readHistory s.fs u) ((s.users u).sequence + 1)
            :: (match mapGet s.streaming u with
                | some cur => [SEvent.streaming cur.text ((s.users u).sequence + 2)]
                | none => [])) := by
  constructor
  · intro hA
    refine ⟨⟨hh, cid, true, SEvent.hello cid (s.users u).sequence
        :: ((s.users u).eventBuffer.filter (fun e => n ≤ (e.1 : Int))).map Prod.snd⟩,
      ?_, rfl, rfl, ?_⟩
    · simp only [connectOp, if_pos hA, users_setUser_self]
    · simp only [connectOp, if_pos hA, users_setUser_self]
  · intro hA
    cases hm : mapGet s.streaming u with
    | none =>
        refine ⟨⟨hh, uuid, true, [SEvent.hello uuid (s.users u).sequence,
            SEvent.history (readHistory s.fs u) ((s.users u).sequence + 1)]⟩, ?_, rfl, rfl⟩
        simp only [connectOp, if_neg hA, fullSyncTo, users_setUser_self, setUser_streaming,
          setUser_fs, hm]
        rw [sendToHandle_append_self _ _ _ rfl, sendToHandle_fresh _ _ hfresh]
        simp
    | some cur =>
        refine ⟨⟨hh, uuid, true, [SEvent.hello uuid (s.users u).sequence,
            SEvent.history (readHistory s.fs u) ((s.users u).sequence + 1),
            SEvent.streaming cur.text ((s.users u).sequence + 2)]⟩, ?_, rfl, rfl⟩
        simp only [connectOp, if_neg hA, fullSyncTo, users_setUser_self, setUser_streaming,
          setUser_fs, hm]
        rw [sendToHandle_append_self _ _ _ rfl, sendToHandle_fresh _ _ hfresh,
          sendToHandle_append_self _ _ _ rfl, sendToHandle_fresh _ _ hfresh]
        simp

/-- C2 witness: a first connection with no reconnect parameters takes the
full-sync branch on the empty state. -/
theorem connect_handshake_witness :
    ∃ c, (((connectOp (initState fsEmpty) "u" "" 0 "X" 5).users "u").clients)
        = ((initState fsEmpty).users "u").clients ++ [c]
      ∧ c.connectionId = "X"
      ∧ c.received = SEvent.hello "X" ((initState fsEmpty).users "u").sequence
          :: SEvent.history (readHistory (initState fsEmpty).fs "u")
              (((initState fsEmpty).users "u").sequence + 1)
          :: (match mapGet (initState fsEmpty).streaming "u" with
              | some cur =>
                  [SEvent.streaming cur.text (((initState fsEmpty).users "u").sequence + 2)]
              | none => []) :=
  (connect_handshake (initState fsEmpty) "u" "" 0 "X" 5
    (by intro c hc; simp [initState, initialUserState] at hc)).2
    (fun hAd => hAd.1 rfl)

/-- C2 exactly as stated: the adopt condition asks the supplied
sequence_number to lie between the smallest and largest seq of the user's
event buffer — which presupposes a non-empty buffer — and in every other
case the claim demands a freshly minted connection id plus a history
event. -/
def claimC2 (s : ServerState) (u cid : String) (n : Int) (uuid : String) (hh : Nat) : Prop :=
  if (s.users u).eventBuffer.length ≠ 0 ∧ cid ≠ ""
      ∧ (bufMinSeq (s.users u) : Int) ≤ n ∧ n ≤ (bufMaxSeq (s.users u) : Int) then
    ∃ c, ((connectOp s u cid n uuid hh).users u).clients = (s.users u).clients ++ [c]
      ∧ c.connectionId = cid
      ∧ c.received = SEvent.hello cid (s.users u).sequence
          :: ((s.users u).eventBuffer.filter (fun e => n ≤ (e.1 : Int))).map Prod.snd
  else
    ∃ c, ((connectOp s u cid n uuid hh).users u).clients = (s.users u).clients ++ [c]
      ∧ c.connectionId = uuid
      ∧ ∃ j q, SEvent.history j q ∈ c.received

/-- C2 counterexample: a fresh user (empty buffer, sequence 0) and a client
supplying `connection_id="abc"`, `sequence_number=0`.  The buffer covers no
seq at all, so by the claim a fresh id should be minted and history sent; the
code however substitutes `minBufferedSeq = maxBufferedSeq = sequence = 0`
for the empty buffer, adopts `"abc"`, and sends the hello alone — no history
event. -/
theorem connect_empty_buffer_cex :
    ((connectOp (initState fsEmpty) "u" "abc" 0 "fresh" 7).users "u").clients.map
        Client.connectionId = ["abc"]
    ∧ ¬ claimC2 (initState fsEmpty) "u" "abc" 0 "fresh" 7 := by
  refine ⟨rfl, fun hcl => ?_⟩
  unfold claimC2 at hcl
  rw [if_neg (by simp [initState, initialUserState])] at hcl
  obtain ⟨c, hc1, hc2, -⟩ := hcl
  have he : ((connectOp (initState fsEmpty) "u" "abc" 0 "fresh" 7).users "u").clients
      = [⟨7, "abc", true, [SEvent.hello "abc" 0]⟩] := rfl
  rw [he] at hc1
  simp only [initState, initialUserState, List.nil_append, List.cons.injEq, and_true] at hc1
  rw [← hc1] at hc2
  exact absurd hc2 (by decide)

/-- C5: `pushOutboundMessage` strips one leading `pwa-chat:` from the target,
persists a `StoredMessage` with role `assistant` and the given text,
broadcasts it as a `message` event — consuming a sequence number even with
zero clients — and appends exactly one push notification record iff the user
had zero registered clients at that moment, with body `text` when its length
is at most 100 characters and the first 100 characters plus an ellipsis
otherwise. -/
theorem pushOutbound_spec (s s₁ : ServerState) (target text : String)
    (mediaUrl : Option String) (msgId : String) (ts : Int)
    (hstep : pushOutboundMessageOp s target text mediaUrl msgId ts = some s₁) :
    (("pwa-chat:".data.isPrefixOf target.data = true →
        normalizeTarget target = ⟨target.data.drop 9⟩)
      ∧ ("pwa-chat:".data.isPrefixOf target.data = false → normalizeTarget target = target))
  ∧ (outboundMsg msgId text ts mediaUrl).role = Role.assistant
  ∧ (outboundMsg msgId text ts mediaUrl).text = text
  ∧ (∀ msgs, readHistory s.fs (normalizeTarget target) = Json.arr msgs →
      readHistory s₁.fs (normalizeTarget target)
        = Json.arr (shiftWhile (msgs ++ [encodeMsg (outboundMsg msgId text ts mediaUrl)])))
  ∧ (s₁.users (normalizeTarget target)).sequence
      = (s.users (normalizeTarget target)).sequence + 1
  ∧ (s₁.users (normalizeTarget target)).emitLog
      = (s.users (normalizeTarget target)).emitLog
        ++ [SEvent.message (outboundMsg msgId text ts mediaUrl)
              (s.users (normalizeTarget target)).sequence]
  ∧ s₁.pushes = s.pushes
      ++ (if (s.users (normalizeTarget target)).clients.length = 0
          then [(normalizeTarget target, "🦞 JKLobster", previewOf text, "pwa-chat-reply")]
          else [])
  ∧ (text.data.length ≤ 100 → previewOf text = text)
  ∧ (100 < text.data.length → previewOf text = ⟨text.data.take 100 ++ ['…']⟩) := by
  simp only [pushOutboundMessageOp] at hstep
  cases happ : appendMessage s.fs (normalizeTarget target) (outboundMsg msgId text ts mediaUrl)
      with
  | none => rw [happ] at hstep; cases hstep
  | some fs₁ =>
      rw [happ] at hstep
      simp only [Option.some.injEq] at hstep
      have hlen : ((broadcastEvent { s with fs := fs₁ } (normalizeTarget target)
          (fun q => SEvent.message (outboundMsg msgId text ts mediaUrl) q)).users
            (normalizeTarget target)).clients.length
          = (s.users (normalizeTarget target)).clients.length := by
        simp [broadcastEvent, users_setUser_self]
      refine ⟨⟨fun hp => by simp [normalizeTarget, hp],
          fun hp => by simp [normalizeTarget, hp]⟩, rfl, rfl, ?_, ?_, ?_, ?_, ?_, ?_⟩
      · intro msgs hread
        unfold appendMessage at happ
        rw [hread] at happ
        simp only [Option.some.injEq] at happ
        have hfs : s₁.fs = fs₁ := by
          rw [← hstep]
          split <;> simp [broadcastEvent, ServerState.setUser]
        rw [hfs, ← happ]
        simp [readHistory]
      · rw [← hstep]
        split <;> simp [broadcastEvent, users_setUser_self]
      · rw [← hstep]
        split <;> simp [broadcastEvent, users_setUser_self]
      · rw [← hstep]
        rw [hlen]
        by_cases hz : (s.users (normalizeTarget target)).clients.length = 0
        · rw [if_pos hz, if_pos hz]
          simp [broadcastEvent, ServerState.setUser]
        · rw [if_neg hz, if_neg hz]
          simp [broadcastEvent, ServerState.setUser]
      · intro hl
        simp only [previewOf]
        rw [if_neg (by omega)]
      · intro hl
        simp only [previewOf]
        rw [if_pos hl]

/-- The state after one outbound push to a fresh user. -/
def sW5 : ServerState :=
  (pushOutboundMessageOp (initState fsEmpty) "pwa-chat:u1" "hello" none "m1" 0).getD
    (initState fsEmpty)

/-- C5 witness: the push advanced the sequence counter even though the user
had zero clients. -/
theorem pushOutbound_spec_witness :
    (sW5.users (normalizeTarget "pwa-chat:u1")).sequence
      = ((initState fsEmpty).users (normalizeTarget "pwa-chat:u1")).sequence + 1 :=
  (pushOutbound_spec (initState fsEmpty) sW5 "pwa-chat:u1" "hello" none "m1" 0 rfl).2.2.2.2.1

/-- C6 (amended): on a client `message` event the text is trimmed; if the
trimmed text is empty the event is ignored entirely — regardless of any
attached images, since the code returns on `!text` before looking at them —
and otherwise a role-`user` message (with image metadata iff at least one
image) is persisted, broadcast, and handed to the dispatcher. -/
theorem clientMessage_spec (s : ServerState) (u rawText : String) (images : Option Nat)
    (msgId : String) (ts : Int) :
    (jsTrim rawText = "" → clientMessageOp s u rawText images msgId ts = some s)
  ∧ (jsTrim rawText ≠ "" → ∀ s₁, clientMessageOp s u rawText images msgId ts = some s₁ →
      (inboundMsg msgId (jsTrim rawText) ts images).role = Role.user
      ∧ ((inboundMsg msgId (jsTrim rawText) ts images).images
          = match images with | some k => if 0 < k then some k else none | none => none)
      ∧ (∀ msgs, readHistory s.fs u = Json.arr msgs →
          readHistory s₁.fs u = Json.arr (shiftWhile (msgs
            ++ [encodeMsg (inboundMsg msgId (jsTrim rawText) ts images)])))
      ∧ (s₁.users u).sequence = (s.users u).sequence + 1
      ∧ (s₁.users u).emitLog = (s.users u).emitLog
          ++ [SEvent.message (inboundMsg msgId (jsTrim rawText) ts images)
                (s.users u).sequence]
      ∧ s₁.dispatches = s.dispatches ++ [(u, jsTrim rawText, images)]) := by
  constructor
  · intro ht
    simp only [clientMessageOp, if_pos ht]
  · intro ht s₁ hstep
    simp only [clientMessageOp, if_neg ht] at hstep
    cases happ : appendMessage s.fs u (inboundMsg msgId (jsTrim rawText) ts images) with
    | none => rw [happ] at hstep; cases hstep
    | some fs₁ =>
        rw [happ] at hstep
        simp only [Option.some.injEq] at hstep
        refine ⟨rfl, rfl, ?_, ?_, ?_, ?_⟩
        · intro msgs hread
          unfold appendMessage at happ
          rw [hread] at happ
          simp only [Option.some.injEq] at happ
          have hfs : s₁.fs = fs₁ := by
            rw [← hstep]
            simp [broadcastEvent, ServerState.setUser]
          rw [hfs, ← happ]
          simp [readHistory]
        · rw [← hstep]
          simp [broadcastEvent, users_setUser_self]
        · rw [← hstep]
          simp [broadcastEvent, users_setUser_self]
        · rw [← hstep]
          simp [broadcastEvent, ServerState.setUser]

/-- The state after one non-empty client message on the fresh store. -/
def sW6 : ServerState :=
  (clientMessageOp (initState fsEmpty) "u" "hi" none "m1" 0).getD (initState fsEmpty)

/-- C6 witness: a non-empty message is dispatched. -/
theorem clientMessage_spec_witness :
    sW6.dispatches = (initState fsEmpty).dispatches ++ [("u", jsTrim "hi", none)] :=
  ((clientMessage_spec (initState fsEmpty) "u" "hi" none "m1" 0).2 (by decide)
    sW6 rfl).2.2.2.2.2

/-- C6 exactly as stated: ignore only when the trimmed text is empty and
there are no images; otherwise — non-empty trimmed text or at least one
image — persist, broadcast and dispatch. -/
def claimC6 (s : ServerState) (u rawText : String) (images : Option Nat)
    (msgId : String) (ts : Int) : Prop :=
  if jsTrim rawText = "" ∧ images.getD 0 = 0 then
    clientMessageOp s u rawText images msgId ts = some s
  else
    ∀ s₁, clientMessageOp s u rawText images msgId ts = some s₁ →
      s₁.dispatches = s.dispatches ++ [(u, jsTrim rawText, images)]

/-- C6 counterexample: whitespace-only text with one attached image.  The
claim requires the message to be persisted and dispatched (an image is
present); the code returns on the empty trimmed text before looking at
images, leaving the state unchanged and the dispatcher uninvoked. -/
theorem empty_text_with_images_cex :
    clientMessageOp (initState fsEmpty) "u" "  " (some 1) "m1" 0 = some (initState fsEmpty)
    ∧ ¬ claimC6 (initState fsEmpty) "u" "  " (some 1) "m1" 0 := by
  refine ⟨rfl, fun hcl => ?_⟩
  unfold claimC6 at hcl
  rw [if_neg (by decide)] at hcl
  have := hcl (initState fsEmpty) rfl
  simp [initState] at this

/-- C8: the streaming-timeout state machine, with the armed `setTimeout`
modelled as an absolute deadline and the callback as the `fireTimer`
transition, which can run only while the entry is still present (a later
`setStreamingText` replaces the entry and deadline, `endStreaming` removes
them — either cancels the pending timer) and once its deadline has passed:
at most one streaming entry per user exists at any reachable state; arming
records deadline `now + STREAMING_TIMEOUT_MS`; when the timer fires it
clears the entry, emits exactly one `streaming_end`, and cannot fire
again. -/
theorem streaming_timeout_spec (s : ServerState) (u : String) (hr : Reachable s) :
    (s.streaming.map Prod.fst).Nodup
  ∧ (∀ text, mapGet (setStreamingTextOp s u text).streaming u
      = some ⟨text, s.clock + STREAMING_TIMEOUT_MS⟩)
  ∧ (∀ s₁, fireTimerOp s u = some s₁ →
      ∃ entry, mapGet s.streaming u = some entry ∧ entry.deadline ≤ s.clock
        ∧ mapGet s₁.streaming u = none
        ∧ (s₁.users u).emitLog
            = (s.users u).emitLog ++ [SEvent.streamingEnd (s.users u).sequence]
        ∧ fireTimerOp s₁ u = none) := by
  refine ⟨(inv_reachable s hr).2, ?_, ?_⟩
  · intro text
    simp only [setStreamingTextOp, broadcastEvent, ServerState.setUser]
    exact mapGet_mapSet_self _ _ _
  · intro s₁ hstep
    unfold fireTimerOp at hstep
    cases hm : mapGet s.streaming u with
    | none =>
        simp only [hm] at hstep
        cases hstep
    | some entry =>
        simp only [hm] at hstep
        by_cases hd : entry.deadline ≤ s.clock
        · rw [if_pos hd] at hstep
          simp only [Option.some.injEq] at hstep
          refine ⟨entry, rfl, hd, ?_, ?_, ?_⟩
          · rw [← hstep]
            simp only [broadcastEvent, ServerState.setUser]
            exact mapGet_mapDelete_self _ _
          · rw [← hstep]
            simp [broadcastEvent, users_setUser_self]
          · rw [← hstep]
            unfold fireTimerOp
            simp only [broadcastEvent, ServerState.setUser]
            rw [mapGet_mapDelete_self]
        · rw [if_neg hd] at hstep
          cases hstep

/-- Arm the streaming timer, then let 30 s pass. -/
def tW8 : List Op := [.setStream "u" "hel", .tick 30000]

/-- The state after `tW8`. -/
def sW8 : ServerState := (run (initState fsEmpty) tW8).getD (initState fsEmpty)

/-- C8 witness: re-arming on a concrete reachable state records the fresh
30-second deadline. -/
theorem streaming_timeout_spec_witness :
    mapGet (setStreamingTextOp sW8 "u" "x").streaming "u"
      = some ⟨"x", sW8.clock + STREAMING_TIMEOUT_MS⟩ :=
  (streaming_timeout_spec sW8 "u" ⟨fsEmpty, tW8, rfl⟩).2.1 "x"

end PwaChat
